import Mathlib

/-!
Verification of the admission-and-dispatch layer of the sora2api gateway:
a shallow embedding of `ConcurrencyManager`, `TokenManager`, `LoadBalancer`,
`FileCache` and the `GenerationHandler` orchestration from the TypeScript
source, with theorems settling the specified properties.

JavaScript `Map` objects are embedded as association lists with
first-occurrence lookup, in-place replacement on `set`, and
first-occurrence removal on `delete`; all reachable states have
duplicate-free keys, and the lookup/replace pair is coherent even
without that invariant.
-/

namespace Sora

/-- Lookup in a JS-Map-style association list (first occurrence wins). -/
def mapGet {α : Type} (m : List (String × α)) (k : String) : Option α :=
  match m with
  | [] => none
  | p :: rest => if p.1 == k then some p.2 else mapGet rest k

/-- `Map.set`: replace the first binding of `k`, or append a new binding. -/
def mapSet {α : Type} (m : List (String × α)) (k : String) (v : α) :
    List (String × α) :=
  match m with
  | [] => [(k, v)]
  | p :: rest => if p.1 == k then (k, v) :: rest else p :: mapSet rest k v

/-- `Map.delete`: remove the first binding of `k`, if any. -/
def mapDelete {α : Type} (m : List (String × α)) (k : String) :
    List (String × α) :=
  match m with
  | [] => []
  | p :: rest => if p.1 == k then rest else p :: mapDelete rest k

theorem mapGet_set_self {α : Type} (m : List (String × α)) (k : String) (v : α) :
    mapGet (mapSet m k v) k = some v := by
  induction m with
  | nil => simp [mapSet, mapGet]
  | cons p rest ih =>
    by_cases h : p.1 = k
    · simp [mapSet, mapGet, h]
    · simp [mapSet, mapGet, h, ih]

theorem mapGet_set_ne {α : Type} (m : List (String × α)) (k k' : String) (v : α)
    (h : k' ≠ k) : mapGet (mapSet m k v) k' = mapGet m k' := by
  have hk : ¬(k = k') := fun hh => h hh.symm
  induction m with
  | nil => simp [mapSet, mapGet, hk]
  | cons p rest ih =>
    obtain ⟨pk, pv⟩ := p
    by_cases hp : pk = k
    · subst hp
      simp [mapSet, mapGet, hk]
    · by_cases hp' : pk = k'
      · simp [mapSet, mapGet, hp, hp', h, hk]
      · simp [mapSet, mapGet, hp, hp', ih]

theorem mapSet_mapSet {α : Type} (m : List (String × α)) (k : String) (v w : α) :
    mapSet (mapSet m k v) k w = mapSet m k w := by
  induction m with
  | nil => simp [mapSet]
  | cons p rest ih =>
    by_cases h : p.1 = k
    · simp [mapSet, h]
    · simp [mapSet, h, ih]

theorem mapSet_self {α : Type} (m : List (String × α)) (k : String) (v : α)
    (h : mapGet m k = some v) : mapSet m k v = m := by
  induction m with
  | nil => simp [mapGet] at h
  | cons p rest ih =>
    obtain ⟨pk, pv⟩ := p
    by_cases hp : pk = k
    · subst hp
      simp [mapGet] at h
      simp [mapSet, ← h]
    · simp [mapGet, hp] at h
      simp [mapSet, hp, ih h]

theorem mem_mapSet {α : Type} {m : List (String × α)} {k : String} {v : α}
    {p : String × α} (h : p ∈ mapSet m k v) : p = (k, v) ∨ p ∈ m := by
  induction m with
  | nil => simp [mapSet] at h; simp [h]
  | cons q rest ih =>
    by_cases hq : q.1 = k
    · simp [mapSet, hq] at h
      rcases h with h | h
      · exact Or.inl h
      · exact Or.inr (List.mem_cons_of_mem _ h)
    · simp [mapSet, hq] at h
      rcases h with h | h
      · exact Or.inr (by simp [h])
      · rcases ih h with h' | h'
        · exact Or.inl h'
        · exact Or.inr (List.mem_cons_of_mem _ h')

theorem mapGet_eq_none_of_not_mem_keys {α : Type} {m : List (String × α)}
    {k : String} (h : k ∉ m.map Prod.fst) : mapGet m k = none := by
  induction m with
  | nil => simp [mapGet]
  | cons p rest ih =>
    simp at h
    have hp : p.1 ≠ k := fun hh => h.1 hh.symm
    simp [mapGet, hp, ih (by simp [h.2])]

theorem keys_mapSet_subset {α : Type} (m : List (String × α)) (k : String) (v : α) :
    ∀ x ∈ (mapSet m k v).map Prod.fst, x = k ∨ x ∈ m.map Prod.fst := by
  intro x hx
  simp at hx
  obtain ⟨b, hb⟩ := hx
  rcases mem_mapSet hb with h | h
  · left; exact congrArg Prod.fst h
  · right; exact List.mem_map_of_mem Prod.fst h

theorem nodup_keys_mapSet {α : Type} (m : List (String × α)) (k : String) (v : α)
    (h : (m.map Prod.fst).Nodup) : ((mapSet m k v).map Prod.fst).Nodup := by
  induction m with
  | nil => simp [mapSet]
  | cons p rest ih =>
    obtain ⟨pk, pv⟩ := p
    simp at h
    by_cases hp : pk = k
    · subst hp
      simpa [mapSet] using h
    · simp [mapSet, hp]
      refine ⟨?_, ih h.2⟩
      intro b hb
      rcases mem_mapSet hb with h' | h'
      · exact hp (congrArg Prod.fst h')
      · exact h.1 b h'

theorem mapGet_delete_self {α : Type} (m : List (String × α)) (k : String)
    (h : (m.map Prod.fst).Nodup) : mapGet (mapDelete m k) k = none := by
  induction m with
  | nil => simp [mapDelete, mapGet]
  | cons p rest ih =>
    obtain ⟨pk, pv⟩ := p
    simp at h
    by_cases hp : pk = k
    · subst hp
      simp [mapDelete]
      apply mapGet_eq_none_of_not_mem_keys
      intro hk
      simp at hk
      obtain ⟨b, hb⟩ := hk
      exact h.1 b hb
    · simp [mapDelete, mapGet, hp, ih h.2]

theorem length_mapDelete_of_mem {α : Type} (m : List (String × α)) (k : String)
    (h : mapGet m k ≠ none) : (mapDelete m k).length = m.length - 1 := by
  induction m with
  | nil => simp [mapGet] at h
  | cons p rest ih =>
    by_cases hp : p.1 = k
    · simp [mapDelete, hp]
    · simp [mapGet, hp] at h
      simp [mapDelete, hp, ih h]
      have : rest.length ≠ 0 := by
        intro h0
        rw [List.length_eq_zero] at h0
        subst h0
        simp [mapGet] at h
      omega

theorem length_mapSet_of_mem {α : Type} (m : List (String × α)) (k : String) (v : α)
    (h : mapGet m k ≠ none) : (mapSet m k v).length = m.length := by
  induction m with
  | nil => simp [mapGet] at h
  | cons p rest ih =>
    by_cases hp : p.1 = k
    · simp [mapSet, hp]
    · simp [mapGet, hp] at h
      simp [mapSet, hp, ih h]

/-! ## ConcurrencyManager (src/src/services/concurrency_manager.ts)

State: a JS Map from the credential secret string to
`{ current, max }`, plus the mutable default `maxConcurrentPerToken`
(source default 3). Counters are JS numbers that the source only ever
moves by guarded plus/minus one from 0, so `Nat` is the faithful carrier.
-/

structure TokenUsage where
  current : Nat
  max : Nat
deriving Repr, DecidableEq

structure ConcurrencyManager where
  tokenUsage : List (String × TokenUsage)
  maxConcurrentPerToken : Nat
deriving Repr, DecidableEq

/-- A credential row as in `core/database.ts` (`interface Token`). -/
structure Token where
  id : Nat
  name : String
  token : String
  enabled : Bool
  createdAt : String
  updatedAt : String
deriving Repr, DecidableEq

namespace ConcurrencyManager

/-- Fresh manager as built by the constructor (empty map, default 3). -/
def mk0 : ConcurrencyManager := ⟨[], 3⟩

/-- Source method named `initialize` (a reserved word here): clear the map,
then set every credential to `{current: 0, max: maxConcurrentPerToken}`
keyed by its secret string. -/
def initializeTokens (cm : ConcurrencyManager) (tokens : List Token) :
    ConcurrencyManager :=
  { cm with tokenUsage :=
      tokens.foldl (fun m t => mapSet m t.token ⟨0, cm.maxConcurrentPerToken⟩) [] }

/-- `canUseToken(token)`: present and `current < max`; absent keys are refused. -/
def canUseToken (cm : ConcurrencyManager) (s : String) : Bool :=
  match mapGet cm.tokenUsage s with
  | some u => decide (u.current < u.max)
  | none => false

/-- `incrementUsage(token)`: unguarded `current++` when the key is present. -/
def incrementUsage (cm : ConcurrencyManager) (s : String) : ConcurrencyManager :=
  match mapGet cm.tokenUsage s with
  | some u =>
      { cm with tokenUsage := mapSet cm.tokenUsage s ⟨u.current + 1, u.max⟩ }
  | none => cm

/-- `decrementUsage(token)`: `current--` only when present and `current > 0`. -/
def decrementUsage (cm : ConcurrencyManager) (s : String) : ConcurrencyManager :=
  match mapGet cm.tokenUsage s with
  | some u =>
      if 0 < u.current then
        { cm with tokenUsage := mapSet cm.tokenUsage s ⟨u.current - 1, u.max⟩ }
      else cm
  | none => cm

/-- The complete observable effect of one `decrementUsage` call: the new
state paired with the console output the call produces. The source body is
only the guarded decrement; it contains no `console` call and no `throw`,
so the emitted output is always empty. -/
def decrementUsageRun (cm : ConcurrencyManager) (s : String) :
    ConcurrencyManager × List String :=
  (decrementUsage cm s, [])

/-- `getAvailableTokensCount()`: entries with `current < max`. -/
def getAvailableTokensCount (cm : ConcurrencyManager) : Nat :=
  (cm.tokenUsage.filter (fun p => decide (p.2.current < p.2.max))).length

/-- `setMaxConcurrentPerToken(max)`: store the new default and overwrite
`max` on every existing entry, leaving `current` untouched. -/
def setMaxConcurrentPerToken (cm : ConcurrencyManager) (n : Nat) :
    ConcurrencyManager :=
  ⟨cm.tokenUsage.map (fun p => (p.1, ⟨p.2.current, n⟩)), n⟩

end ConcurrencyManager

open ConcurrencyManager

/-! ## Admission operation sequences

The operations the admission controller exposes to its callers. `acquire`
is the check-and-increment the `LoadBalancer` performs: `canUseToken`
followed by `incrementUsage` on success (the source has no standalone
atomic acquire method). -/

inductive AdmOp where
  | initTok (tokens : List Token)
  | canUse (s : String)
  | acquire (s : String)
  | release (s : String)
  | setMax (n : Nat)
deriving Repr, DecidableEq

def AdmOp.isSetMax : AdmOp → Bool
  | .setMax _ => true
  | _ => false

def applyAdmOp (cm : ConcurrencyManager) : AdmOp → ConcurrencyManager
  | .initTok ts => initializeTokens cm ts
  | .canUse _ => cm
  | .acquire s => if canUseToken cm s then incrementUsage cm s else cm
  | .release s => decrementUsage cm s
  | .setMax n => setMaxConcurrentPerToken cm n

def applyAdmOps (cm : ConcurrencyManager) (ops : List AdmOp) :
    ConcurrencyManager :=
  ops.foldl applyAdmOp cm

/-- The spec invariant on the admission state: every tracked entry has
`inUse ≤ budget` (the `0 ≤ inUse` half is carried by the `Nat` counters,
which faithfully embed the guarded JS counters that never go negative). -/
def AdmInv (cm : ConcurrencyManager) : Prop :=
  ∀ p ∈ cm.tokenUsage, p.2.current ≤ p.2.max

instance (cm : ConcurrencyManager) : Decidable (AdmInv cm) := by
  unfold AdmInv; infer_instance

theorem mapGet_mem {α : Type} {m : List (String × α)} {k : String} {v : α}
    (h : mapGet m k = some v) : ∃ k', (k', v) ∈ m := by
  induction m with
  | nil => simp [mapGet] at h
  | cons p rest ih =>
    by_cases hp : p.1 = k
    · simp [mapGet, hp] at h
      exact ⟨p.1, by simp [← h]⟩
    · simp [mapGet, hp] at h
      obtain ⟨k', hk'⟩ := ih h
      exact ⟨k', List.mem_cons_of_mem _ hk'⟩

theorem admInv_initializeTokens (cm : ConcurrencyManager) (ts : List Token) :
    AdmInv (initializeTokens cm ts) := by
  unfold AdmInv initializeTokens
  simp only
  suffices hgen : ∀ acc : List (String × TokenUsage),
      (∀ p ∈ acc, p.2.current ≤ p.2.max) →
      ∀ p ∈ ts.foldl
        (fun m t => mapSet m t.token ⟨0, cm.maxConcurrentPerToken⟩) acc,
        p.2.current ≤ p.2.max by
    exact hgen [] (by simp)
  induction ts with
  | nil => intro acc hacc; simpa using hacc
  | cons t rest ih =>
    intro acc hacc
    simp only [List.foldl_cons]
    apply ih
    intro p hp
    rcases mem_mapSet hp with h | h
    · simp [h]
    · exact hacc p h

theorem admInv_acquire (cm : ConcurrencyManager) (s : String)
    (h : AdmInv cm) :
    AdmInv (if canUseToken cm s then incrementUsage cm s else cm) := by
  by_cases hc : canUseToken cm s = true
  · rw [if_pos hc]
    unfold canUseToken at hc
    unfold AdmInv incrementUsage
    cases hg : mapGet cm.tokenUsage s with
    | none => rw [hg] at hc; simp at hc
    | some u =>
      rw [hg] at hc
      simp at hc
      simp only [hg]
      intro p hp
      rcases mem_mapSet hp with h' | h'
      · simp [h']; omega
      · exact h p h'
  · rw [if_neg (by simpa using hc)]
    exact h

theorem admInv_release (cm : ConcurrencyManager) (s : String)
    (h : AdmInv cm) : AdmInv (decrementUsage cm s) := by
  unfold AdmInv decrementUsage
  cases hg : mapGet cm.tokenUsage s with
  | none => exact h
  | some u =>
    by_cases hc : 0 < u.current
    · simp only [if_pos hc]
      intro p hp
      rcases mem_mapSet hp with h' | h'
      · obtain ⟨k', hk'⟩ := mapGet_mem hg
        have hu : u.current ≤ u.max := h _ hk'
        simp [h']
        omega
      · exact h p h'
    · simp only [if_neg hc]
      exact h

theorem admInv_applyAdmOp (cm : ConcurrencyManager) (op : AdmOp)
    (h : AdmInv cm) (hop : op.isSetMax = false) : AdmInv (applyAdmOp cm op) := by
  cases op with
  | initTok ts => exact admInv_initializeTokens cm ts
  | canUse s => exact h
  | acquire s => exact admInv_acquire cm s h
  | release s => exact admInv_release cm s h
  | setMax n => simp [AdmOp.isSetMax] at hop

theorem admInv_applyAdmOps (cm : ConcurrencyManager) (ops : List AdmOp)
    (h : AdmInv cm) (hops : ∀ op ∈ ops, op.isSetMax = false) :
    AdmInv (applyAdmOps cm ops) := by
  induction ops generalizing cm with
  | nil => exact h
  | cons op rest ih =>
    have h1 : AdmInv (applyAdmOp cm op) :=
      admInv_applyAdmOp cm op h (hops op (by simp))
    exact ih (applyAdmOp cm op) h1 (fun o ho => hops o (List.mem_cons_of_mem _ ho))

theorem admInv_setMax (cm : ConcurrencyManager) (n : Nat)
    (hn : ∀ p ∈ cm.tokenUsage, p.2.current ≤ n) :
    AdmInv (setMaxConcurrentPerToken cm n) := by
  unfold AdmInv setMaxConcurrentPerToken
  intro p hp
  simp at hp
  obtain ⟨a, b, hab, hpeq⟩ := hp
  have := hn (a, b) hab
  simp [← hpeq]
  exact this

/-! ## Iterated acquisition on one credential -/

/-- One admission attempt on credential `s`, exactly as the load balancer
performs it: check `canUseToken`, then `incrementUsage` on success. -/
def acquireOp (cm : ConcurrencyManager) (s : String) :
    Bool × ConcurrencyManager :=
  if canUseToken cm s then (true, incrementUsage cm s) else (false, cm)

/-- `n` consecutive admission attempts on credential `s`; returns the
number of successful attempts and the final state. -/
def acquireN : Nat → ConcurrencyManager → String → Nat × ConcurrencyManager
  | 0, cm, _ => (0, cm)
  | n + 1, cm, s =>
    let r := acquireOp cm s
    let r2 := acquireN n r.2 s
    ((if r.1 then 1 else 0) + r2.1, r2.2)

theorem canUseToken_eq (cm : ConcurrencyManager) (s : String) (u : TokenUsage)
    (hg : mapGet cm.tokenUsage s = some u) :
    canUseToken cm s = decide (u.current < u.max) := by
  unfold canUseToken
  rw [hg]

theorem mapGet_incrementUsage (cm : ConcurrencyManager) (s : String)
    (u : TokenUsage) (hg : mapGet cm.tokenUsage s = some u) :
    mapGet (incrementUsage cm s).tokenUsage s = some ⟨u.current + 1, u.max⟩ := by
  unfold incrementUsage
  rw [hg]
  exact mapGet_set_self _ _ _

theorem mapGet_decrementUsage (cm : ConcurrencyManager) (s : String)
    (u : TokenUsage) (hg : mapGet cm.tokenUsage s = some u)
    (hc : 0 < u.current) :
    mapGet (decrementUsage cm s).tokenUsage s = some ⟨u.current - 1, u.max⟩ := by
  unfold decrementUsage
  rw [hg]
  simp only [if_pos hc]
  exact mapGet_set_self _ _ _

theorem acquireN_spec (n : Nat) (cm : ConcurrencyManager) (s : String)
    (c B : Nat) (hg : mapGet cm.tokenUsage s = some ⟨c, B⟩) (hcB : c ≤ B) :
    (acquireN n cm s).1 = min n (B - c) ∧
      mapGet (acquireN n cm s).2.tokenUsage s = some ⟨min (c + n) B, B⟩ := by
  induction n generalizing cm c with
  | zero =>
    constructor
    · simp [acquireN]
    · simp [acquireN]
      rw [hg]
      congr 2
      omega
  | succ n ih =>
    by_cases hlt : c < B
    · have hcan : canUseToken cm s = true := by
        rw [canUseToken_eq cm s ⟨c, B⟩ hg]
        simpa using hlt
      have hop : acquireOp cm s = (true, incrementUsage cm s) := by
        unfold acquireOp
        rw [if_pos hcan]
      have hg' : mapGet (incrementUsage cm s).tokenUsage s = some ⟨c + 1, B⟩ :=
        mapGet_incrementUsage cm s ⟨c, B⟩ hg
      obtain ⟨ih1, ih2⟩ := ih (incrementUsage cm s) (c + 1) hg' (by omega)
      constructor
      · show (acquireN (n + 1) cm s).1 = _
        unfold acquireN
        rw [hop]
        simp only [if_true]
        rw [ih1]
        omega
      · show mapGet (acquireN (n + 1) cm s).2.tokenUsage s = _
        unfold acquireN
        rw [hop]
        show mapGet (acquireN n (incrementUsage cm s) s).2.tokenUsage s = _
        rw [ih2]
        congr 2
        omega
    · have hceq : c = B := by omega
      have hcan : canUseToken cm s = false := by
        rw [canUseToken_eq cm s ⟨c, B⟩ hg]
        simpa using hlt
      have hop : acquireOp cm s = (false, cm) := by
        unfold acquireOp
        rw [if_neg (by simp [hcan])]
      obtain ⟨ih1, ih2⟩ := ih cm c hg hcB
      constructor
      · show (acquireN (n + 1) cm s).1 = _
        unfold acquireN
        rw [hop]
        simp only [Bool.false_eq_true, if_false]
        rw [ih1]
        omega
      · show mapGet (acquireN (n + 1) cm s).2.tokenUsage s = _
        unfold acquireN
        rw [hop]
        show mapGet (acquireN n cm s).2.tokenUsage s = _
        rw [ih2]
        congr 2
        omega

/-! ## Claims C2, C3, C5 -/

/-- Claim C2, counterexample: the invariant `inUse ≤ budget` does not
survive every operation sequence. From a fresh manager, initialize one
credential with secret "t" (budget defaults to 3), admit it once
(inUse becomes 1), then `setMaxConcurrentPerToken 0`: the entry now has
`inUse = 1 > 0 = budget`, because the source overwrites `max` on every
entry without clamping or checking `current`. -/
theorem claim_C2_counterexample :
    ¬ AdmInv (applyAdmOps ConcurrencyManager.mk0
      [AdmOp.initTok [⟨1, "a", "t", true, "", ""⟩],
       AdmOp.acquire "t", AdmOp.setMax 0]) := by
  decide

/-- Claim C2 (amended): for every credential tracked by the admission
controller, `0 ≤ inUse` always holds (the counters are naturals, faithfully
embedding the guarded JS counters), and `inUse ≤ budget` holds after every
sequence of initialize / canAdmit / acquire / release operations from any
state satisfying it; `setBudget n` preserves the invariant precisely when
the new budget `n` is at least every current `inUse` — a budget lowered
below an in-flight count violates it (see the counterexample). -/
theorem claim_C2_amended :
    (∀ (cm : ConcurrencyManager) (ops : List AdmOp), AdmInv cm →
        (∀ op ∈ ops, op.isSetMax = false) → AdmInv (applyAdmOps cm ops)) ∧
    (∀ (cm : ConcurrencyManager) (n : Nat),
        (∀ p ∈ cm.tokenUsage, p.2.current ≤ n) →
        AdmInv (setMaxConcurrentPerToken cm n)) :=
  ⟨fun cm ops h hops => admInv_applyAdmOps cm ops h hops,
   fun cm n hn => admInv_setMax cm n hn⟩

/-- Claim C2 amended, witness at concrete inputs. -/
theorem claim_C2_amended_witness :
    AdmInv (applyAdmOps ConcurrencyManager.mk0
      [AdmOp.initTok [⟨1, "a", "t", true, "", ""⟩],
       AdmOp.acquire "t", AdmOp.release "t"]) ∧
    AdmInv (setMaxConcurrentPerToken ⟨[("t", ⟨1, 3⟩)], 3⟩ 2) :=
  ⟨claim_C2_amended.1 ConcurrencyManager.mk0 _ (by decide) (by decide),
   claim_C2_amended.2 ⟨[("t", ⟨1, 3⟩)], 3⟩ 2 (by decide)⟩

/-- Claim C3: for a tracked credential with budget `B` and `inUse = 0`,
exactly `B` of any run of consecutive check-and-increment acquisitions
succeed (the success count of `n` attempts is `min n B`); after `B`
acquisitions `canUseToken` reports false; after a single `decrementUsage`
it reports true again. -/
theorem claim_C3 (cm : ConcurrencyManager) (s : String) (B : Nat)
    (hg : mapGet cm.tokenUsage s = some ⟨0, B⟩) (hB : 0 < B) :
    (∀ n : Nat, (acquireN n cm s).1 = min n B) ∧
    canUseToken (acquireN B cm s).2 s = false ∧
    canUseToken (decrementUsage (acquireN B cm s).2 s) s = true := by
  have h1 : ∀ n, (acquireN n cm s).1 = min n B := by
    intro n
    have h := (acquireN_spec n cm s 0 B hg (by omega)).1
    simpa using h
  have h2 := (acquireN_spec B cm s 0 B hg (by omega)).2
  have hBB : (⟨min (0 + B) B, B⟩ : TokenUsage) = ⟨B, B⟩ := by
    congr 1
    omega
  rw [hBB] at h2
  refine ⟨h1, ?_, ?_⟩
  · rw [canUseToken_eq _ s ⟨B, B⟩ h2]
    simp
  · have h3 := mapGet_decrementUsage _ s ⟨B, B⟩ h2 (by simpa using hB)
    rw [canUseToken_eq _ s ⟨B - 1, B⟩ h3]
    simp only [decide_eq_true_eq]
    omega

/-- Claim C3, witness: budget 2 on credential secret "t". -/
theorem claim_C3_witness :
    mapGet (⟨[("t", ⟨0, 2⟩)], 3⟩ : ConcurrencyManager).tokenUsage "t"
        = some ⟨0, 2⟩ ∧ (0 : Nat) < 2 ∧
    ((∀ n : Nat, (acquireN n ⟨[("t", ⟨0, 2⟩)], 3⟩ "t").1 = min n 2) ∧
     canUseToken (acquireN 2 ⟨[("t", ⟨0, 2⟩)], 3⟩ "t").2 "t" = false ∧
     canUseToken
       (decrementUsage (acquireN 2 ⟨[("t", ⟨0, 2⟩)], 3⟩ "t").2 "t") "t"
         = true) :=
  ⟨by decide, by decide,
   claim_C3 ⟨[("t", ⟨0, 2⟩)], 3⟩ "t" 2 (by decide) (by decide)⟩

/-- Claim C5, counterexample: decrementing a credential whose `inUse` is
already 0 is a silent no-op in the source. The complete observable effect
of the call — the returned state paired with the console output — is the
unchanged state and an empty output: nothing is rejected and nothing is
logged, refuting the claim that such an attempt is never silently clamped
without a signal (the source body is only the guarded decrement, with no
console call and no throw). -/
theorem claim_C5_counterexample :
    decrementUsageRun ⟨[("t", ⟨0, 3⟩)], 3⟩ "t"
      = ((⟨[("t", ⟨0, 3⟩)], 3⟩ : ConcurrencyManager), []) := by
  decide

/-- Claim C5 (amended): calling `decrementUsage` on a credential whose
`inUse` is 0 keeps `inUse` at 0 — the state is returned unchanged — and
the attempt is silently ignored: the call emits no log output and raises
no error. -/
theorem claim_C5_amended (cm : ConcurrencyManager) (s : String)
    (u : TokenUsage) (hg : mapGet cm.tokenUsage s = some u)
    (h0 : u.current = 0) :
    decrementUsageRun cm s = (cm, []) := by
  unfold decrementUsageRun decrementUsage
  rw [hg]
  simp [h0]

/-- Claim C5 amended, witness at a concrete zero-usage credential. -/
theorem claim_C5_amended_witness :
    mapGet (⟨[("u", ⟨0, 5⟩)], 3⟩ : ConcurrencyManager).tokenUsage "u"
        = some ⟨0, 5⟩ ∧
    decrementUsageRun ⟨[("u", ⟨0, 5⟩)], 3⟩ "u"
        = ((⟨[("u", ⟨0, 5⟩)], 3⟩ : ConcurrencyManager), []) :=
  ⟨by decide, claim_C5_amended ⟨[("u", ⟨0, 5⟩)], 3⟩ "u" ⟨0, 5⟩ (by decide) rfl⟩

/-! ## TokenManager (src/src/services/token_manager.ts)

Rotation state: the loaded credential list and the shared cursor
`tokenIndex`. `getNextToken` recomputes the enabled filter on every call,
picks `enabled[tokenIndex % len]`, then stores `(tokenIndex + 1) % len`. -/

structure TokenManager where
  tokens : List Token
  tokenIndex : Nat
deriving Repr, DecidableEq

namespace TokenManager

def enabledTokens (tm : TokenManager) : List Token :=
  tm.tokens.filter (fun t => t.enabled)

/-- `getNextToken()`: null when no credential is enabled, otherwise the
round-robin pick, advancing the cursor modulo the enabled count. -/
def getNextToken (tm : TokenManager) : Option Token × TokenManager :=
  if h : (enabledTokens tm).length = 0 then (none, tm)
  else
    (some ((enabledTokens tm).get
        ⟨tm.tokenIndex % (enabledTokens tm).length,
         Nat.mod_lt _ (Nat.pos_of_ne_zero h)⟩),
     { tm with tokenIndex := (tm.tokenIndex + 1) % (enabledTokens tm).length })

theorem tokens_getNextToken (tm : TokenManager) :
    (getNextToken tm).2.tokens = tm.tokens := by
  unfold getNextToken
  by_cases h : (enabledTokens tm).length = 0 <;> simp [h]

theorem enabledTokens_getNextToken (tm : TokenManager) :
    enabledTokens (getNextToken tm).2 = enabledTokens tm := by
  unfold enabledTokens
  rw [tokens_getNextToken]

theorem getNextToken_of_pos (tm : TokenManager)
    (hE : 0 < (enabledTokens tm).length) :
    getNextToken tm =
      (some ((enabledTokens tm).get
          ⟨tm.tokenIndex % (enabledTokens tm).length, Nat.mod_lt _ hE⟩),
       { tm with tokenIndex := (tm.tokenIndex + 1) % (enabledTokens tm).length }) := by
  unfold getNextToken
  rw [dif_neg (by omega)]

theorem getNextToken_of_zero (tm : TokenManager)
    (hE : (enabledTokens tm).length = 0) : getNextToken tm = (none, tm) := by
  unfold getNextToken
  rw [dif_pos hE]

end TokenManager

open TokenManager

/-! ## LoadBalancer (src/src/services/load_balancer.ts)

`getToken()` loops over at most `tokens.length` rotation picks, admits the
first pick that passes `canUseToken`, and increments its usage; a full
cycle with no admission, or an empty enabled set, yields null.
`releaseToken` forwards to `decrementUsage`. -/

def getTokenLoop :
    Nat → TokenManager → ConcurrencyManager →
      Option String × TokenManager × ConcurrencyManager
  | 0, tm, cm => (none, tm, cm)
  | n + 1, tm, cm =>
    match getNextToken tm with
    | (none, tm2) => (none, tm2, cm)
    | (some tok, tm2) =>
      if canUseToken cm tok.token then
        (some tok.token, tm2, incrementUsage cm tok.token)
      else getTokenLoop n tm2 cm

namespace LoadBalancer

def getToken (tm : TokenManager) (cm : ConcurrencyManager) :
    Option String × TokenManager × ConcurrencyManager :=
  getTokenLoop tm.tokens.length tm cm

def releaseToken (cm : ConcurrencyManager) (s : String) : ConcurrencyManager :=
  ConcurrencyManager.decrementUsage cm s

end LoadBalancer

theorem getTokenLoop_succ_none (n : Nat) (tm : TokenManager)
    (cm : ConcurrencyManager) (hE : (enabledTokens tm).length = 0) :
    getTokenLoop (n + 1) tm cm = (none, tm, cm) := by
  have h := getNextToken_of_zero tm hE
  simp only [getTokenLoop, h]

theorem getTokenLoop_succ_some (n : Nat) (tm tm2 : TokenManager)
    (cm : ConcurrencyManager) (tok : Token)
    (h : getNextToken tm = (some tok, tm2)) :
    getTokenLoop (n + 1) tm cm =
      if canUseToken cm tok.token then
        (some tok.token, tm2, incrementUsage cm tok.token)
      else getTokenLoop n tm2 cm := by
  simp only [getTokenLoop, h]

theorem getTokenLoop_all_fail (n : Nat) (tm : TokenManager)
    (cm : ConcurrencyManager)
    (hfail : ∀ t ∈ enabledTokens tm, canUseToken cm t.token = false) :
    (getTokenLoop n tm cm).1 = none ∧ (getTokenLoop n tm cm).2.2 = cm := by
  induction n generalizing tm with
  | zero => exact ⟨rfl, rfl⟩
  | succ n ih =>
    by_cases hE : (enabledTokens tm).length = 0
    · rw [getTokenLoop_succ_none n tm cm hE]
      exact ⟨rfl, rfl⟩
    · have hpos : 0 < (enabledTokens tm).length := Nat.pos_of_ne_zero hE
      have hmem : (enabledTokens tm).get
          ⟨tm.tokenIndex % (enabledTokens tm).length, Nat.mod_lt _ hpos⟩
            ∈ enabledTokens tm := List.get_mem _ _ _
      have hf := hfail _ hmem
      simp only [List.get_eq_getElem] at hf
      rw [getTokenLoop_succ_some n tm _ cm _ (getNextToken_of_pos tm hpos)]
      rw [if_neg (by simp [hf])]
      apply ih
      intro t ht
      exact hfail t ht

theorem get_congr_idx {α : Type} (l : List α) (i j : Nat) (hi : i < l.length)
    (hj : j < l.length) (h : i = j) : l.get ⟨i, hi⟩ = l.get ⟨j, hj⟩ := by
  subst h
  rfl

theorem exists_rotation_hit (c j E : Nat) (hE : 0 < E) (hj : j < E) :
    ∃ k, k < E ∧ (c + k) % E = j := by
  refine ⟨(j + E - c % E) % E, Nat.mod_lt _ hE, ?_⟩
  have h1 : c % E ≤ j + E :=
    le_trans (le_of_lt (Nat.mod_lt _ hE)) (Nat.le_add_left E j)
  calc (c + (j + E - c % E) % E) % E
      = ((j + E - c % E) % E + c) % E := by rw [Nat.add_comm]
    _ = (j + E - c % E + c) % E := Nat.mod_add_mod _ _ _
    _ = (c + (j + E - c % E)) % E := by rw [Nat.add_comm]
    _ = (c % E + (j + E - c % E)) % E := (Nat.mod_add_mod _ _ _).symm
    _ = (j + E) % E := by rw [Nat.add_sub_cancel' h1]
    _ = j % E := Nat.add_mod_right j E
    _ = j := Nat.mod_eq_of_lt hj

theorem getTokenLoop_some_spec (n : Nat) (tm : TokenManager)
    (cm : ConcurrencyManager) (s : String)
    (h : (getTokenLoop n tm cm).1 = some s) :
    (∃ t ∈ enabledTokens tm, t.token = s) ∧ canUseToken cm s = true ∧
      (getTokenLoop n tm cm).2.2 = incrementUsage cm s := by
  induction n generalizing tm with
  | zero => simp [getTokenLoop] at h
  | succ n ih =>
    by_cases hE : (enabledTokens tm).length = 0
    · rw [getTokenLoop_succ_none n tm cm hE] at h
      simp at h
    · have hpos : 0 < (enabledTokens tm).length := Nat.pos_of_ne_zero hE
      have hnext := getNextToken_of_pos tm hpos
      rw [getTokenLoop_succ_some n tm _ cm _ hnext] at h ⊢
      have hmem : (enabledTokens tm).get
          ⟨tm.tokenIndex % (enabledTokens tm).length, Nat.mod_lt _ hpos⟩
            ∈ enabledTokens tm := List.get_mem _ _ _
      by_cases hc : canUseToken cm ((enabledTokens tm).get
          ⟨tm.tokenIndex % (enabledTokens tm).length,
           Nat.mod_lt _ hpos⟩).token = true
      · rw [if_pos hc] at h ⊢
        simp only [Option.some.injEq] at h
        subst h
        exact ⟨⟨_, hmem, rfl⟩, hc, rfl⟩
      · rw [if_neg hc] at h ⊢
        obtain ⟨⟨t, ht, hts⟩, hcu, hinc⟩ := ih _ h
        exact ⟨⟨t, ht, hts⟩, hcu, hinc⟩

theorem getTokenLoop_succeeds (n : Nat) (tm : TokenManager)
    (cm : ConcurrencyManager) (k : Nat) (hk : k < n)
    (hpos : 0 < (enabledTokens tm).length)
    (hcan : canUseToken cm ((enabledTokens tm).get
      ⟨(tm.tokenIndex + k) % (enabledTokens tm).length,
       Nat.mod_lt _ hpos⟩).token = true) :
    (getTokenLoop n tm cm).1 ≠ none := by
  induction n generalizing tm k with
  | zero => omega
  | succ n ih =>
    have hnext := getNextToken_of_pos tm hpos
    rw [getTokenLoop_succ_some n tm _ cm _ hnext]
    by_cases hc : canUseToken cm ((enabledTokens tm).get
        ⟨tm.tokenIndex % (enabledTokens tm).length,
         Nat.mod_lt _ hpos⟩).token = true
    · rw [if_pos hc]
      simp
    · rw [if_neg hc]
      rcases Nat.eq_zero_or_pos k with hk0 | hkpos

      · exfalso
        apply hc
        rw [get_congr_idx (enabledTokens tm) _ _ _ (Nat.mod_lt _ hpos)
          (by rw [hk0, Nat.add_zero])] at hcan
        exact hcan
      · have hidx : (((tm.tokenIndex + 1) % (enabledTokens tm).length) + (k - 1))
              % (enabledTokens tm).length
            = (tm.tokenIndex + k) % (enabledTokens tm).length := by
          rw [Nat.mod_add_mod]
          congr 1
          omega
        apply ih { tm with tokenIndex :=
            (tm.tokenIndex + 1) % (enabledTokens tm).length } (k - 1)
          (by omega) hpos
        show canUseToken cm ((enabledTokens tm).get
          ⟨((tm.tokenIndex + 1) % (enabledTokens tm).length + (k - 1))
              % (enabledTokens tm).length, Nat.mod_lt _ hpos⟩).token = true
        rw [get_congr_idx (enabledTokens tm) _ _ (Nat.mod_lt _ hpos)
          (Nat.mod_lt _ hpos) hidx]
        exact hcan

/-- Claim C4: the load balancer returns null exactly when no currently
enabled credential passes the admission check; whenever it returns a
credential, that credential is enabled, passed `canUseToken` at call time,
and the admission state has been advanced by exactly its increment. The
loop runs `tokens.length` iterations, which covers every enabled
credential because the enabled list is a sublist of the full pool, so the
rotation picks hit every enabled index at least once. -/
theorem claim_C4 (tm : TokenManager) (cm : ConcurrencyManager) :
    ((LoadBalancer.getToken tm cm).1 = none ↔
      ∀ t ∈ enabledTokens tm, canUseToken cm t.token = false) ∧
    (∀ s : String, (LoadBalancer.getToken tm cm).1 = some s →
      (∃ t ∈ enabledTokens tm, t.token = s) ∧ canUseToken cm s = true ∧
        (LoadBalancer.getToken tm cm).2.2 = incrementUsage cm s) := by
  constructor
  · constructor
    · intro hnone t ht
      by_contra hcu
      have hcu2 : canUseToken cm t.token = true := by
        cases h2 : canUseToken cm t.token
        · exact absurd h2 hcu
        · rfl
      have hpos : 0 < (enabledTokens tm).length :=
        List.length_pos.mpr (List.ne_nil_of_mem ht)
      obtain ⟨⟨j, hj⟩, hget⟩ := List.mem_iff_get.mp ht
      obtain ⟨k, hk, hkidx⟩ :=
        exists_rotation_hit tm.tokenIndex j (enabledTokens tm).length hpos hj
      have hfuel : k < tm.tokens.length :=
        lt_of_lt_of_le hk (List.length_filter_le _ _)
      apply getTokenLoop_succeeds tm.tokens.length tm cm k hfuel hpos ?_ hnone
      rw [get_congr_idx (enabledTokens tm) _ _ (Nat.mod_lt _ hpos) hj hkidx]
      rw [hget]
      exact hcu2
    · intro hfail
      exact (getTokenLoop_all_fail _ tm cm hfail).1
  · intro s hs
    exact getTokenLoop_some_spec _ tm cm s hs

/-- Concrete sample pool used by the witnesses: one enabled credential
with secret "t", fresh admission state with budget 3. -/
def tokA : Token := ⟨1, "a", "t", true, "", ""⟩

def tmA : TokenManager := ⟨[tokA], 0⟩

def cmA : ConcurrencyManager := ⟨[("t", ⟨0, 3⟩)], 3⟩

/-- Claim C4, witness: on the sample pool the balancer admits "t" and
advances exactly its counter. -/
theorem claim_C4_witness :
    (∃ t ∈ enabledTokens tmA, t.token = "t") ∧
      canUseToken cmA "t" = true ∧
      (LoadBalancer.getToken tmA cmA).2.2 = incrementUsage cmA "t" :=
  (claim_C4 tmA cmA).2 "t" (by decide)

/-! ## Iterated rotation (claim C6) -/

/-- The results of `n` consecutive `getNextToken()` calls, with the final
rotation state. -/
def getNextTokenN : Nat → TokenManager → List (Option Token) × TokenManager
  | 0, tm => ([], tm)
  | n + 1, tm =>
    let r := getNextToken tm
    let r2 := getNextTokenN n r.2
    (r.1 :: r2.1, r2.2)

theorem tokens_getNextTokenN (n : Nat) (tm : TokenManager) :
    (getNextTokenN n tm).2.tokens = tm.tokens := by
  induction n generalizing tm with
  | zero => rfl
  | succ n ih =>
    show (getNextTokenN n (getNextToken tm).2).2.tokens = tm.tokens
    rw [ih, tokens_getNextToken]

theorem get_congr {α : Type} (l1 l2 : List α) (i1 i2 : Nat) (h1 : i1 < l1.length)
    (h2 : i2 < l2.length) (hl : l1 = l2) (hi : i1 = i2) :
    l1.get ⟨i1, h1⟩ = l2.get ⟨i2, h2⟩ := by
  subst hl
  exact get_congr_idx l1 i1 i2 h1 h2 hi

theorem idx_getNextTokenN (n : Nat) (tm : TokenManager)
    (hpos : 0 < (enabledTokens tm).length) :
    (getNextTokenN (n + 1) tm).2.tokenIndex
      = (tm.tokenIndex + (n + 1)) % (enabledTokens tm).length := by
  induction n generalizing tm with
  | zero =>
    show (getNextTokenN 0 (getNextToken tm).2).2.tokenIndex = _
    rw [getNextToken_of_pos tm hpos]
    rfl
  | succ n ih =>
    show (getNextTokenN (n + 1) (getNextToken tm).2).2.tokenIndex = _
    have hpos2 : 0 < (enabledTokens (getNextToken tm).2).length := by
      rw [enabledTokens_getNextToken]
      exact hpos
    rw [ih (getNextToken tm).2 hpos2, enabledTokens_getNextToken]
    rw [getNextToken_of_pos tm hpos]
    show ((tm.tokenIndex + 1) % (enabledTokens tm).length + (n + 1))
        % (enabledTokens tm).length = _
    rw [Nat.mod_add_mod]
    congr 1
    omega

theorem results_getNextTokenN (n : Nat) (tm : TokenManager)
    (hpos : 0 < (enabledTokens tm).length) :
    (getNextTokenN n tm).1 = (List.range n).map (fun k =>
      some ((enabledTokens tm).get
        ⟨(tm.tokenIndex + k) % (enabledTokens tm).length,
         Nat.mod_lt _ hpos⟩)) := by
  induction n generalizing tm with
  | zero => rfl
  | succ n ih =>
    show (getNextToken tm).1 :: (getNextTokenN n (getNextToken tm).2).1 = _
    have hpos2 : 0 < (enabledTokens (getNextToken tm).2).length := by
      rw [enabledTokens_getNextToken]
      exact hpos
    rw [ih (getNextToken tm).2 hpos2]
    rw [List.range_succ_eq_map, List.map_cons, List.map_map]
    congr 1
    · rw [getNextToken_of_pos tm hpos]
      show some _ = some _
      congr 1
    · apply List.map_congr_left
      intro k hk
      show some _ = some _
      congr 1
      apply get_congr _ _ _ _ _ _ (enabledTokens_getNextToken tm) ?_
      rw [getNextToken_of_pos tm hpos]
      show ((tm.tokenIndex + 1) % (enabledTokens tm).length + k)
          % (enabledTokens tm).length = _
      rw [Nat.mod_add_mod]
      congr 1
      omega

/-- Claim C6: with `N` enabled credentials and the enabled set unchanged
between calls, `N` consecutive `getNextToken()` calls return the enabled
list rotated to the cursor position — hence each enabled credential
exactly once (a permutation of the enabled list) — and the call after
those `N` returns the same credential as the first call did. -/
theorem claim_C6 (tm : TokenManager)
    (hpos : 0 < (enabledTokens tm).length) :
    (getNextTokenN (enabledTokens tm).length tm).1
        = ((enabledTokens tm).rotate
            (tm.tokenIndex % (enabledTokens tm).length)).map some ∧
    ((getNextTokenN (enabledTokens tm).length tm).1).Perm
        ((enabledTokens tm).map some) ∧
    (getNextToken (getNextTokenN (enabledTokens tm).length tm).2).1
        = (getNextToken tm).1 := by
  have hrot : (getNextTokenN (enabledTokens tm).length tm).1
      = ((enabledTokens tm).rotate
          (tm.tokenIndex % (enabledTokens tm).length)).map some := by
    rw [results_getNextTokenN (enabledTokens tm).length tm hpos]
    apply List.ext_get
    · simp
    · intro k h1 h2
      simp only [List.get_eq_getElem, List.getElem_map, List.getElem_range,
        List.getElem_rotate]
      have hidx : (tm.tokenIndex + k) % (enabledTokens tm).length
          = (k + tm.tokenIndex % (enabledTokens tm).length)
              % (enabledTokens tm).length := by
        rw [Nat.add_comm k (tm.tokenIndex % (enabledTokens tm).length)]
        rw [Nat.mod_add_mod]
      simp only [hidx]
  refine ⟨hrot, ?_, ?_⟩
  · rw [hrot]
    exact (List.rotate_perm _ _).map some
  · have htoks := tokens_getNextTokenN (enabledTokens tm).length tm
    have hen : enabledTokens (getNextTokenN (enabledTokens tm).length tm).2
        = enabledTokens tm := by
      show ((getNextTokenN (enabledTokens tm).length tm).2.tokens).filter
            (fun t => t.enabled)
          = tm.tokens.filter (fun t => t.enabled)
      rw [htoks]
    have hposF :
        0 < (enabledTokens (getNextTokenN (enabledTokens tm).length tm).2).length := by
      rw [hen]
      exact hpos
    have hidxF : (getNextTokenN (enabledTokens tm).length tm).2.tokenIndex
        = (tm.tokenIndex + (enabledTokens tm).length)
            % (enabledTokens tm).length := by
      obtain ⟨n, hn⟩ : ∃ n, (enabledTokens tm).length = n + 1 :=
        ⟨(enabledTokens tm).length - 1, by omega⟩
      have h2 := idx_getNextTokenN n tm hpos
      rw [← hn] at h2
      exact h2
    rw [getNextToken_of_pos _ hposF, getNextToken_of_pos tm hpos]
    show some _ = some _
    congr 1
    apply get_congr _ _ _ _ _ _ hen ?_
    rw [hidxF]
    rw [show (enabledTokens (getNextTokenN (enabledTokens tm).length tm).2).length
        = (enabledTokens tm).length from congrArg List.length hen]
    rw [Nat.add_mod_right]
    exact Nat.mod_mod_of_dvd tm.tokenIndex (dvd_refl _)

/-- Concrete rotation pool used by the C6 witness: two enabled
credentials. -/
def tmB : TokenManager :=
  ⟨[⟨1, "a", "t1", true, "", ""⟩, ⟨2, "b", "t2", true, "", ""⟩], 0⟩

/-- Claim C6, witness at the two-credential pool. -/
theorem claim_C6_witness :
    (0 : Nat) < (enabledTokens tmB).length ∧
    ((getNextTokenN (enabledTokens tmB).length tmB).1
        = ((enabledTokens tmB).rotate
            (tmB.tokenIndex % (enabledTokens tmB).length)).map some ∧
    ((getNextTokenN (enabledTokens tmB).length tmB).1).Perm
        ((enabledTokens tmB).map some) ∧
    (getNextToken (getNextTokenN (enabledTokens tmB).length tmB).2).1
        = (getNextToken tmB).1) :=
  ⟨by decide, claim_C6 tmB (by decide)⟩

/-- Claim C9: a token string absent from the admission map (anything not
present at the last initialization) is never admitted (`canUseToken` is
false), increment and decrement leave the state untouched, and the load
balancer can never hand it out — so a credential added to the pool after
initialization stays unadmittable until the map is rebuilt. -/
theorem claim_C9 (cm : ConcurrencyManager) (s : String)
    (h : mapGet cm.tokenUsage s = none) :
    canUseToken cm s = false ∧
    incrementUsage cm s = cm ∧
    decrementUsage cm s = cm ∧
    (∀ tm : TokenManager, (LoadBalancer.getToken tm cm).1 ≠ some s) := by
  refine ⟨?_, ?_, ?_, ?_⟩
  · unfold canUseToken
    rw [h]
  · unfold incrementUsage
    rw [h]
  · unfold decrementUsage
    rw [h]
  · intro tm hs
    have hspec := getTokenLoop_some_spec tm.tokens.length tm cm s hs
    have hcu : canUseToken cm s = true := hspec.2.1
    unfold canUseToken at hcu
    rw [h] at hcu
    exact Bool.false_ne_true hcu

/-- Claim C9, witness: the string "x" is not in the sample admission map. -/
theorem claim_C9_witness :
    mapGet cmA.tokenUsage "x" = none ∧
    (canUseToken cmA "x" = false ∧
     incrementUsage cmA "x" = cmA ∧
     decrementUsage cmA "x" = cmA ∧
     (∀ tm : TokenManager, (LoadBalancer.getToken tm cmA).1 ≠ some "x")) :=
  ⟨by decide, claim_C9 cmA "x" (by decide)⟩

/-- Claim C10: the admission map is keyed by the secret token string, not
by credential id. Initializing over two credentials with equal secrets
leaves a single shared entry, `getAvailableTokensCount` counts one
credential, and an admission performed through the first credential is
visible as usage on the second. -/
theorem claim_C10 (cm : ConcurrencyManager) (t1 t2 : Token)
    (h : t1.token = t2.token) :
    (initializeTokens cm [t1, t2]).tokenUsage
        = [(t2.token, ⟨0, cm.maxConcurrentPerToken⟩)] ∧
    getAvailableTokensCount (initializeTokens cm [t1, t2])
        = (if 0 < cm.maxConcurrentPerToken then 1 else 0) ∧
    mapGet (incrementUsage (initializeTokens cm [t1, t2]) t1.token).tokenUsage
        t2.token = some ⟨1, cm.maxConcurrentPerToken⟩ := by
  have hinit : (initializeTokens cm [t1, t2]).tokenUsage
      = [(t2.token, ⟨0, cm.maxConcurrentPerToken⟩)] := by
    show mapSet (mapSet [] t1.token _) t2.token _ = _
    rw [h]
    simp [mapSet]
  refine ⟨hinit, ?_, ?_⟩
  · unfold getAvailableTokensCount
    rw [hinit]
    by_cases hM : 0 < cm.maxConcurrentPerToken
    · simp [hM]
    · simp [hM]
  · rw [h]
    have hg : mapGet (initializeTokens cm [t1, t2]).tokenUsage t2.token
        = some ⟨0, cm.maxConcurrentPerToken⟩ := by
      rw [hinit]
      simp [mapGet]
    have h2 := mapGet_incrementUsage _ t2.token ⟨0, cm.maxConcurrentPerToken⟩ hg
    simpa using h2

/-- Claim C10, witness: two credentials sharing the secret "t". -/
theorem claim_C10_witness :
    (⟨1, "a", "t", true, "", ""⟩ : Token).token
        = (⟨2, "b", "t", true, "", ""⟩ : Token).token ∧
    ((initializeTokens ConcurrencyManager.mk0
        [⟨1, "a", "t", true, "", ""⟩, ⟨2, "b", "t", true, "", ""⟩]).tokenUsage
        = [("t", ⟨0, 3⟩)] ∧
     getAvailableTokensCount (initializeTokens ConcurrencyManager.mk0
        [⟨1, "a", "t", true, "", ""⟩, ⟨2, "b", "t", true, "", ""⟩])
        = (if (0 : Nat) < 3 then 1 else 0) ∧
     mapGet (incrementUsage (initializeTokens ConcurrencyManager.mk0
        [⟨1, "a", "t", true, "", ""⟩, ⟨2, "b", "t", true, "", ""⟩])
          (⟨1, "a", "t", true, "", ""⟩ : Token).token).tokenUsage
        (⟨2, "b", "t", true, "", ""⟩ : Token).token = some ⟨1, 3⟩) :=
  ⟨rfl, claim_C10 ConcurrencyManager.mk0 _ _ rfl⟩

/-! ## FileCache (src/src/services/file_cache.ts)

The cache index is a JS Map from key to
`{ path, url, timestamp, accessCount }` — note the source entry has no
last-accessed field; `timestamp` is set once at creation. The file system
and clock are explicit world state: `Deno.stat` success is membership of
the path, `Deno.writeFile` inserts it, `Deno.remove` erases it. `config`
is the injected `{cacheEnabled, cacheTimeout}` pair (timeout in seconds,
compared in milliseconds). -/

structure CacheEntry where
  path : String
  url : String
  timestamp : Nat
  accessCount : Nat
deriving Repr, DecidableEq

structure CacheConfig where
  cacheEnabled : Bool
  cacheTimeout : Nat
deriving Repr, DecidableEq

structure FileCacheState where
  cacheMap : List (String × CacheEntry)
  isDenoDeploy : Bool
deriving Repr, DecidableEq

structure World where
  fs : List String
  now : Nat
deriving Repr, DecidableEq

def fsAdd (fs : List String) (p : String) : List String :=
  if p ∈ fs then fs else p :: fs

structure CacheStats where
  enabled : Bool
  entries : Nat
  size : Nat
  timeout : Nat
deriving Repr, DecidableEq

namespace FileCache

/-- Filename sanitization from `set`: replace every character outside
`[a-zA-Z0-9]` with an underscore. -/
def sanitize (key : String) : String :=
  String.mk (key.toList.map (fun c => if c.isAlphanum then c else Char.ofNat 95))

/-- `get(key)`: miss when caching is off, in Deno Deploy, the key is
absent, the entry is older than the TTL (entry deleted, file removed), or
the backing file is gone (entry deleted); otherwise bump `accessCount`
and return the stored path. -/
def get (cfg : CacheConfig) (st : FileCacheState) (w : World) (key : String) :
    Option String × FileCacheState × World :=
  if !cfg.cacheEnabled || st.isDenoDeploy then (none, st, w)
  else
    match mapGet st.cacheMap key with
    | none => (none, st, w)
    | some entry =>
      if w.now - entry.timestamp > cfg.cacheTimeout * 1000 then
        (none, { st with cacheMap := mapDelete st.cacheMap key },
         { w with fs := w.fs.erase entry.path })
      else
        let entry2 : CacheEntry := { entry with accessCount := entry.accessCount + 1 }
        let st2 : FileCacheState := { st with cacheMap := mapSet st.cacheMap key entry2 }
        if entry.path ∈ w.fs then
          (some entry.path, st2, w)
        else
          (none, { st2 with cacheMap := mapDelete st2.cacheMap key }, w)

/-- `set(key, url, data)`: no-op returning "" when caching is off or in
Deno Deploy; otherwise write the artifact under a key-derived,
timestamped filename in the cache directory and register the entry with
`accessCount 1` and creation timestamp `now`. -/
def set (cfg : CacheConfig) (st : FileCacheState) (w : World)
    (key url : String) : String × FileCacheState × World :=
  if !cfg.cacheEnabled || st.isDenoDeploy then ("", st, w)
  else
    let path := "cache/" ++ (sanitize key ++ "_" ++ toString w.now)
    (path,
     { st with cacheMap := mapSet st.cacheMap key ⟨path, url, w.now, 1⟩ },
     { w with fs := fsAdd w.fs path })

/-- `getCacheStats()`. -/
def getCacheStats (cfg : CacheConfig) (st : FileCacheState) : CacheStats :=
  ⟨cfg.cacheEnabled, st.cacheMap.length, 0, cfg.cacheTimeout⟩

end FileCache

theorem mem_fsAdd_self (fs : List String) (p : String) : p ∈ fsAdd fs p := by
  unfold fsAdd
  by_cases h : p ∈ fs
  · rw [if_pos h]
    exact h
  · rw [if_neg h]
    exact List.mem_cons_self _ _

/-- Helper: the hit path of `FileCache.get` — entry present, not expired,
backing file present: returns the stored path, bumps only `accessCount`,
leaves the world untouched. -/
theorem get_hit (cfg : CacheConfig) (st : FileCacheState) (w : World)
    (key : String) (e : CacheEntry)
    (hen : cfg.cacheEnabled = true) (hdd : st.isDenoDeploy = false)
    (hg : mapGet st.cacheMap key = some e)
    (hexp : ¬ (w.now - e.timestamp > cfg.cacheTimeout * 1000))
    (hfs : e.path ∈ w.fs) :
    FileCache.get cfg st w key
      = (some e.path,
         ⟨mapSet st.cacheMap key ⟨e.path, e.url, e.timestamp, e.accessCount + 1⟩,
          st.isDenoDeploy⟩, w) := by
  unfold FileCache.get
  rw [hen, hdd, hg]
  simp only [Bool.not_true, Bool.false_or, Bool.false_eq_true, if_false,
    if_neg hexp, if_pos hfs]

/-- Helper: the expired path of `FileCache.get` — entry present but older
than the TTL: miss, entry deleted from the index, backing file removed. -/
theorem get_expired (cfg : CacheConfig) (st : FileCacheState) (w : World)
    (key : String) (e : CacheEntry)
    (hen : cfg.cacheEnabled = true) (hdd : st.isDenoDeploy = false)
    (hg : mapGet st.cacheMap key = some e)
    (hexp : w.now - e.timestamp > cfg.cacheTimeout * 1000) :
    FileCache.get cfg st w key
      = (none, ⟨mapDelete st.cacheMap key, st.isDenoDeploy⟩,
         ⟨w.fs.erase e.path, w.now⟩) := by
  unfold FileCache.get
  rw [hen, hdd, hg]
  simp only [Bool.not_true, Bool.false_or, Bool.false_eq_true, if_false,
    if_pos hexp]

/-- Claim C7: with caching enabled (and not in the Deno Deploy degraded
mode), `set` then an immediate `get` of the same key returns exactly the
path `set` returned; once strictly more than the TTL has elapsed since
the entry was created, `get` misses, the key is gone from the index, and
`stats().entries` drops by one. -/
theorem claim_C7 (cfg : CacheConfig) (st st1 : FileCacheState) (w w1 : World)
    (key url path : String)
    (hen : cfg.cacheEnabled = true) (hdd : st.isDenoDeploy = false)
    (hnd : (st.cacheMap.map Prod.fst).Nodup)
    (hset : FileCache.set cfg st w key url = (path, st1, w1)) :
    (FileCache.get cfg st1 w1 key).1 = some path ∧
    (∀ now2 : Nat, w1.now + cfg.cacheTimeout * 1000 < now2 →
      (FileCache.get cfg st1 { w1 with now := now2 } key).1 = none ∧
      mapGet (FileCache.get cfg st1 { w1 with now := now2 } key).2.1.cacheMap
          key = none ∧
      (FileCache.getCacheStats cfg
          (FileCache.get cfg st1 { w1 with now := now2 } key).2.1).entries
        = (FileCache.getCacheStats cfg st1).entries - 1) := by
  unfold FileCache.set at hset
  rw [hen, hdd] at hset
  simp only [Bool.not_true, Bool.false_or, Bool.false_eq_true, if_false,
    Prod.mk.injEq] at hset
  obtain ⟨hpath, hst1, hw1⟩ := hset
  rw [hpath] at hst1
  rw [hpath] at hw1
  have hdd1 : st1.isDenoDeploy = false := by
    rw [← hst1]
  have hg1 : mapGet st1.cacheMap key = some ⟨path, url, w.now, 1⟩ := by
    rw [← hst1]
    exact mapGet_set_self _ _ _
  have hmap1 : st1.cacheMap = mapSet st.cacheMap key ⟨path, url, w.now, 1⟩ := by
    rw [← hst1]
  have hnow1 : w1.now = w.now := by
    rw [← hw1]
  have hfs1 : path ∈ w1.fs := by
    rw [← hw1]
    exact mem_fsAdd_self _ _
  constructor
  · have hhit := get_hit cfg st1 w1 key ⟨path, url, w.now, 1⟩ hen hdd1 hg1
      (by rw [hnow1]; simp) hfs1
    rw [hhit]
  · intro now2 hnow2
    have hexp2 : ({ w1 with now := now2 } : World).now
          - (⟨path, url, w.now, 1⟩ : CacheEntry).timestamp
        > cfg.cacheTimeout * 1000 := by
      show now2 - w.now > cfg.cacheTimeout * 1000
      rw [hnow1] at hnow2
      omega
    have hexpd := get_expired cfg st1 { w1 with now := now2 } key
      ⟨path, url, w.now, 1⟩ hen hdd1 hg1 hexp2
    rw [hexpd]
    refine ⟨rfl, ?_, ?_⟩
    · show mapGet (mapDelete st1.cacheMap key) key = none
      rw [hmap1]
      exact mapGet_delete_self _ key (nodup_keys_mapSet _ _ _ hnd)
    · show (mapDelete st1.cacheMap key).length = st1.cacheMap.length - 1
      apply length_mapDelete_of_mem
      rw [hg1]
      simp

/-- Concrete cache states for the C7 and C8 witnesses. -/
def cfgC : CacheConfig := ⟨true, 1⟩

def stC : FileCacheState := ⟨[], false⟩

def wC : World := ⟨[], 0⟩

def st1C : FileCacheState := ⟨[("k", ⟨"cache/k_0", "u", 0, 1⟩)], false⟩

def w1C : World := ⟨["cache/k_0"], 0⟩

/-- Claim C7, witness: an empty cache, key "k" set at time 0 with TTL one
second. -/
theorem claim_C7_witness :
    FileCache.set cfgC stC wC "k" "u" = ("cache/k_0", st1C, w1C) ∧
    ((FileCache.get cfgC st1C w1C "k").1 = some "cache/k_0" ∧
     (∀ now2 : Nat, w1C.now + cfgC.cacheTimeout * 1000 < now2 →
       (FileCache.get cfgC st1C { w1C with now := now2 } "k").1 = none ∧
       mapGet (FileCache.get cfgC st1C
           { w1C with now := now2 } "k").2.1.cacheMap "k" = none ∧
       (FileCache.getCacheStats cfgC (FileCache.get cfgC st1C
           { w1C with now := now2 } "k").2.1).entries
         = (FileCache.getCacheStats cfgC st1C).entries - 1)) :=
  ⟨by decide,
   claim_C7 cfgC stC st1C wC w1C "k" "u" "cache/k_0" rfl rfl (by decide)
     (by decide)⟩

/-- Claim C8 (amended): every successful cache read returns the stored
path and replaces the entry by one whose `accessCount` is exactly one
higher, with `path`, `url` and `timestamp` unchanged, leaving the file
system and clock untouched. No last-accessed time is recorded: the
source CacheEntry has only these four fields and `timestamp` stays at
its creation value. -/
theorem claim_C8_amended (cfg : CacheConfig) (st : FileCacheState) (w : World)
    (key : String) (e : CacheEntry)
    (hen : cfg.cacheEnabled = true) (hdd : st.isDenoDeploy = false)
    (hg : mapGet st.cacheMap key = some e)
    (hexp : ¬ (w.now - e.timestamp > cfg.cacheTimeout * 1000))
    (hfs : e.path ∈ w.fs) :
    (FileCache.get cfg st w key).1 = some e.path ∧
    mapGet (FileCache.get cfg st w key).2.1.cacheMap key
        = some ⟨e.path, e.url, e.timestamp, e.accessCount + 1⟩ ∧
    (FileCache.get cfg st w key).2.2 = w := by
  rw [get_hit cfg st w key e hen hdd hg hexp hfs]
  exact ⟨rfl, mapGet_set_self _ _ _, rfl⟩

/-- Concrete cache for the C8 theorems: entry created at time 0, read at
time 5000 with a 3600-second TTL. -/
def cfgD : CacheConfig := ⟨true, 3600⟩

def stD : FileCacheState := ⟨[("k", ⟨"cache/k_0", "u", 0, 1⟩)], false⟩

def wD : World := ⟨["cache/k_0"], 5000⟩

/-- Claim C8, counterexample: a successful read at time 5000 of an entry
created at time 0 returns a hit and stores exactly
`{path, url, timestamp := 0, accessCount := 2}` — the only timestamp the
source CacheEntry carries is the creation time and it is not updated to
the access time, so no `lastAccessedAt` update happens. -/
theorem claim_C8_counterexample :
    (FileCache.get cfgD stD wD "k").1 = some "cache/k_0" ∧
    (FileCache.get cfgD stD wD "k").2.1.cacheMap
        = [("k", ⟨"cache/k_0", "u", 0, 2⟩)] ∧
    (⟨"cache/k_0", "u", 0, 2⟩ : CacheEntry).timestamp ≠ wD.now := by
  decide

/-- Claim C8 amended, witness at the concrete cache. -/
theorem claim_C8_amended_witness :
    mapGet stD.cacheMap "k" = some ⟨"cache/k_0", "u", 0, 1⟩ ∧
    ((FileCache.get cfgD stD wD "k").1 = some "cache/k_0" ∧
     mapGet (FileCache.get cfgD stD wD "k").2.1.cacheMap "k"
        = some ⟨"cache/k_0", "u", 0, 1 + 1⟩ ∧
     (FileCache.get cfgD stD wD "k").2.2 = wD) :=
  ⟨by decide,
   claim_C8_amended cfgD stD wD "k" ⟨"cache/k_0", "u", 0, 1⟩ rfl rfl
     (by decide) (by decide) (by decide)⟩

/-! ## GenerationHandler (handleChatCompletion, src/unnamed/part_000)

The per-request orchestration: acquire a credential through the load
balancer, run the body (model lookup, task creation, upstream call),
stream frames, and in the guaranteed finalizer release the credential (if
one was acquired), compute the elapsed time, and append one request log.
The work after the model lookup (persistence writes and the upstream
call) is one fallible step in the environment whose thrown message the
catch block handles uniformly. -/

inductive GenType where
  | image
  | video
deriving Repr, DecidableEq

inductive Orientation where
  | landscape
  | portrait
deriving Repr, DecidableEq

structure ModelConfig where
  type : GenType
  width : Option Nat
  height : Option Nat
  orientation : Option Orientation
  nFrames : Option Nat
deriving Repr, DecidableEq

/-- The static model catalog `MODEL_CONFIG`. -/
def MODEL_CONFIG : List (String × ModelConfig) := [
  ("sora-image", ⟨.image, some 360, some 360, none, none⟩),
  ("sora-image-landscape", ⟨.image, some 540, some 360, none, none⟩),
  ("sora-image-portrait", ⟨.image, some 360, some 540, none, none⟩),
  ("sora-video-10s", ⟨.video, none, none, some .landscape, some 300⟩),
  ("sora-video-15s", ⟨.video, none, none, some .landscape, some 450⟩),
  ("sora-video-landscape-10s", ⟨.video, none, none, some .landscape, some 300⟩),
  ("sora-video-landscape-15s", ⟨.video, none, none, some .landscape, some 450⟩),
  ("sora-video-portrait-10s", ⟨.video, none, none, some .portrait, some 300⟩),
  ("sora-video-portrait-15s", ⟨.video, none, none, some .portrait, some 450⟩)]

/-- One streamed chat-completion chunk, reduced to the fields the claims
mention. -/
structure Frame where
  id : String
  content : String
  finishReason : Option String
deriving Repr, DecidableEq

/-- One `RequestLog` row as appended by the finalizer. -/
structure RequestLogEntry where
  requestId : String
  model : String
  status : String
  tokenUsed : Option String
  processingTime : Nat
  requestSize : Nat
  responseSize : Nat
  error : Option String
deriving Repr, DecidableEq

/-- Per-request inputs and external outcomes: identifiers, the serialized
request size, the model name, the outcome of the post-lookup body (task
persistence plus the upstream call — one fallible step whose failure
message the catch block reports), and the entry/finalizer clock reads. -/
structure HandlerEnv where
  model : String
  requestId : String
  taskId : String
  requestSize : Nat
  bodyResult : Except String String
  startTime : Nat
  endTime : Nat
deriving Repr

/-- Observable effects of one orchestration run: the streamed frames, the
sequence of credential-release calls, and the appended request logs. -/
structure HandlerOutcome where
  frames : List Frame
  releases : List String
  logs : List RequestLogEntry
deriving Repr, DecidableEq

/-- JS truthiness of a `string | null` value: truthy exactly when present
and non-empty — both `null` and `""` are falsy. The handler tests
`tokenUsed`, `error` and `resultUrl` with this, not with a null check. -/
def strTruthy : Option String → Bool
  | none => false
  | some s => decide (s ≠ "")

/-- The try/catch part of `handleChatCompletion`, given the credential
`getToken` returned: yields `(tokenUsed, error, resultUrl, frames)` for
each branch — no capacity, unknown model, body failure, success. The
guard `if (!tokenUsed) throw ...` is a JS falsy check: it fires both
when no credential was acquired and when the acquired secret is the
empty string; `tokenUsed` keeps its value (`null` or `""`) either way. -/
def runBody (env : HandlerEnv) (tr : Option String) :
    Option String × Option String × Option String × List Frame :=
  match tr with
  | none => (none, some "No available tokens", none,
      [⟨env.requestId, "❌ Error: No available tokens", some "stop"⟩])
  | some tok =>
    if tok = "" then
      (some tok, some "No available tokens", none,
        [⟨env.requestId, "❌ Error: No available tokens", some "stop"⟩])
    else
      match mapGet MODEL_CONFIG env.model with
      | none => (some tok, some ("Unknown model: " ++ env.model), none,
          [⟨env.requestId, "❌ Error: Unknown model: " ++ env.model, some "stop"⟩])
      | some _cfg =>
        match env.bodyResult with
        | .error e => (some tok, some e, none,
            [⟨env.taskId, "Processing your request...", none⟩,
             ⟨env.requestId, "❌ Error: " ++ e, some "stop"⟩])
        | .ok url => (some tok, none, some url,
            [⟨env.taskId, "Processing your request...", none⟩,
             ⟨env.taskId, "✅ Generation complete! [View result](" ++ url ++ ")",
              some "stop"⟩])

/-- The request log row built in the finalizer from the body outcome.
The source computes `status: error ? "failed" : "completed"` and
`responseSize: resultUrl ? resultUrl.length : 0` — JS truthy tests, so
an empty error message logs "completed" and an empty result URL logs
size 0. -/
def mkLog (env : HandlerEnv)
    (b : Option String × Option String × Option String × List Frame) :
    RequestLogEntry :=
  ⟨env.requestId, env.model,
   if strTruthy b.2.1 then "failed" else "completed",
   b.1, env.endTime - env.startTime, env.requestSize,
   (match b.2.2.1 with
    | some u => if u = "" then 0 else u.length
    | none => 0),
   b.2.1⟩

/-- The finalizer's release step, `if (tokenUsed) releaseToken(...)`:
another JS truthy guard, so neither `null` nor an acquired empty-string
secret is released. Returns the release-call trace and the resulting
admission state. -/
def finalizeRelease (cm : ConcurrencyManager) (tokenUsed : Option String) :
    List String × ConcurrencyManager :=
  match tokenUsed with
  | none => ([], cm)
  | some t => if t = "" then ([], cm) else ([t], LoadBalancer.releaseToken cm t)

/-- `handleChatCompletion`: acquire through the load balancer, run the
body, then the finalizer — release the acquired credential when its
truthy guard passes, append exactly one log. Returns the outcome and the
final rotation and admission states. -/
def handleChatCompletion (env : HandlerEnv) (tm : TokenManager)
    (cm : ConcurrencyManager) :
    HandlerOutcome × TokenManager × ConcurrencyManager :=
  let r := LoadBalancer.getToken tm cm
  let b := runBody env r.1
  let fin := finalizeRelease r.2.2 b.1
  (⟨b.2.2.2, fin.1, [mkLog env b]⟩, r.2.1, fin.2)

theorem runBody_fst (env : HandlerEnv) (tr : Option String) :
    (runBody env tr).1 = tr := by
  unfold runBody
  cases tr with
  | none => rfl
  | some tok =>
    by_cases h : tok = ""
    · simp only [if_pos h]
    · simp only [if_neg h]
      cases mapGet MODEL_CONFIG env.model with
      | none => rfl
      | some c =>
        cases env.bodyResult with
        | error e => rfl
        | ok u => rfl

theorem getTokenLoop_none_state (n : Nat) (tm : TokenManager)
    (cm : ConcurrencyManager) (h : (getTokenLoop n tm cm).1 = none) :
    (getTokenLoop n tm cm).2.2 = cm := by
  induction n generalizing tm with
  | zero => rfl
  | succ n ih =>
    by_cases hE : (enabledTokens tm).length = 0
    · rw [getTokenLoop_succ_none n tm cm hE]
    · have hpos : 0 < (enabledTokens tm).length := Nat.pos_of_ne_zero hE
      have hnext := getNextToken_of_pos tm hpos
      rw [getTokenLoop_succ_some n tm _ cm _ hnext] at h ⊢
      by_cases hc : canUseToken cm ((enabledTokens tm).get
          ⟨tm.tokenIndex % (enabledTokens tm).length,
           Nat.mod_lt _ hpos⟩).token = true
      · rw [if_pos hc] at h
        simp at h
      · rw [if_neg hc] at h ⊢
        exact ih _ h

theorem tokenUsage_incrementUsage_of_some (cm : ConcurrencyManager)
    (s : String) (u : TokenUsage) (hg : mapGet cm.tokenUsage s = some u) :
    (incrementUsage cm s).tokenUsage
      = mapSet cm.tokenUsage s ⟨u.current + 1, u.max⟩ := by
  unfold incrementUsage
  rw [hg]

theorem maxCPT_incrementUsage (cm : ConcurrencyManager) (s : String) :
    (incrementUsage cm s).maxConcurrentPerToken = cm.maxConcurrentPerToken := by
  unfold incrementUsage
  cases mapGet cm.tokenUsage s <;> rfl

theorem decrement_increment_cancel (cm : ConcurrencyManager) (s : String)
    (hc : canUseToken cm s = true) :
    decrementUsage (incrementUsage cm s) s = cm := by
  unfold canUseToken at hc
  cases hg : mapGet cm.tokenUsage s with
  | none =>
    rw [hg] at hc
    simp at hc
  | some u =>
    rw [hg] at hc
    have hg2 : mapGet (incrementUsage cm s).tokenUsage s
        = some ⟨u.current + 1, u.max⟩ := mapGet_incrementUsage cm s u hg
    unfold decrementUsage
    rw [hg2]
    simp only [Nat.zero_lt_succ, if_pos]
    have hmap : mapSet (incrementUsage cm s).tokenUsage s
        ⟨u.current + 1 - 1, u.max⟩ = cm.tokenUsage := by
      rw [tokenUsage_incrementUsage_of_some cm s u hg, mapSet_mapSet]
      have he : (⟨u.current + 1 - 1, u.max⟩ : TokenUsage) = u := by
        cases u
        simp
      rw [he]
      exact mapSet_self _ _ _ hg
    rw [hmap, maxCPT_incrementUsage]

/-- Failing input for claim C1 as stated: a pool whose one enabled
credential has the empty string as its secret, tracked by the admission
map with budget 3. Nothing in the source or the data model excludes it. -/
def tokE : Token := ⟨1, "a", "", true, "", ""⟩

def tmE : TokenManager := ⟨[tokE], 0⟩

def cmE : ConcurrencyManager := ⟨[("", ⟨0, 3⟩)], 3⟩

def envE : HandlerEnv :=
  ⟨"sora-image", "reqE", "taskE", 10, Except.ok "https://r", 100, 160⟩

/-- Claim C1, counterexample: the load balancer admits the empty-string
secret and increments its counter, but the handler's `if (!tokenUsed)`
and the finalizer's `if (tokenUsed)` are JS falsy checks for which `""`
is falsy, so the run performs no release and the admission state keeps
the acquired slot (`inUse` stays 1) — the acquired credential is not
released, refuting release-exactly-once on this input. The log half
still holds: exactly one entry is appended. -/
theorem claim_C1_counterexample :
    (LoadBalancer.getToken tmE cmE).1 = some "" ∧
    (LoadBalancer.getToken tmE cmE).2.2.tokenUsage = [("", ⟨1, 3⟩)] ∧
    (handleChatCompletion envE tmE cmE).1.releases = [] ∧
    (handleChatCompletion envE tmE cmE).2.2.tokenUsage = [("", ⟨1, 3⟩)] ∧
    (handleChatCompletion envE tmE cmE).2.2 ≠ cmE ∧
    (handleChatCompletion envE tmE cmE).1.logs.length = 1 := by
  decide

/-- Claim C1 (amended): exactly one RequestLog entry is appended on every
branch, recording the request id, model, terminal status (failed exactly
when a truthy — non-null, non-empty — error message was recorded), the
credential variable as logged, the elapsed processing time, and the
request and response sizes. The acquired credential is released exactly
once and the admission state returns to its pre-request value whenever
the acquired secret is non-empty, and nothing is released when none was
acquired; an acquired empty-string secret is the one exception — the
finalizer's JS truthy guard skips its release and the slot leaks (see
the counterexample). -/
theorem claim_C1_amended (env : HandlerEnv) (tm : TokenManager)
    (cm : ConcurrencyManager) :
    (handleChatCompletion env tm cm).1.logs.length = 1 ∧
    (∀ log ∈ (handleChatCompletion env tm cm).1.logs,
      log.requestId = env.requestId ∧
      log.model = env.model ∧
      log.tokenUsed = (LoadBalancer.getToken tm cm).1 ∧
      log.processingTime = env.endTime - env.startTime ∧
      log.requestSize = env.requestSize ∧
      (log.status = "failed" ∨ log.status = "completed") ∧
      (log.status = "failed" ↔ strTruthy log.error = true)) ∧
    ((LoadBalancer.getToken tm cm).1 = none →
      (handleChatCompletion env tm cm).1.releases = [] ∧
      (handleChatCompletion env tm cm).2.2 = cm) ∧
    (∀ s : String, s ≠ "" → (LoadBalancer.getToken tm cm).1 = some s →
      (handleChatCompletion env tm cm).1.releases = [s] ∧
      (handleChatCompletion env tm cm).2.2 = cm) := by
  refine ⟨rfl, ?_, ?_, ?_⟩
  · intro log hlog
    have hl : log = mkLog env (runBody env (LoadBalancer.getToken tm cm).1) := by
      have hsing : (handleChatCompletion env tm cm).1.logs
          = [mkLog env (runBody env (LoadBalancer.getToken tm cm).1)] := rfl
      rw [hsing] at hlog
      simpa using hlog
    subst hl
    refine ⟨rfl, rfl, ?_, rfl, rfl, ?_, ?_⟩
    · show (runBody env (LoadBalancer.getToken tm cm).1).1 = _
      exact runBody_fst env _
    · by_cases he :
        strTruthy (runBody env (LoadBalancer.getToken tm cm).1).2.1 = true
      · left
        show (if _ then "failed" else "completed") = "failed"
        rw [if_pos he]
      · right
        show (if _ then "failed" else "completed") = "completed"
        rw [if_neg he]
    · by_cases he :
        strTruthy (runBody env (LoadBalancer.getToken tm cm).1).2.1 = true
      · show ((if _ then "failed" else "completed") = "failed" ↔
          strTruthy (runBody env (LoadBalancer.getToken tm cm).1).2.1 = true)
        rw [if_pos he]
        simp [he]
      · show ((if _ then "failed" else "completed") = "failed" ↔
          strTruthy (runBody env (LoadBalancer.getToken tm cm).1).2.1 = true)
        rw [if_neg he]
        simp [he]
  · intro hr
    constructor
    · show (finalizeRelease (LoadBalancer.getToken tm cm).2.2
          (runBody env (LoadBalancer.getToken tm cm).1).1).1 = []
      rw [runBody_fst, hr]
      rfl
    · show (finalizeRelease (LoadBalancer.getToken tm cm).2.2
          (runBody env (LoadBalancer.getToken tm cm).1).1).2 = cm
      rw [runBody_fst, hr]
      show (LoadBalancer.getToken tm cm).2.2 = cm
      exact getTokenLoop_none_state tm.tokens.length tm cm hr
  · intro s hs hr
    constructor
    · show (finalizeRelease (LoadBalancer.getToken tm cm).2.2
          (runBody env (LoadBalancer.getToken tm cm).1).1).1 = [s]
      rw [runBody_fst, hr]
      simp only [finalizeRelease, if_neg hs]
    · show (finalizeRelease (LoadBalancer.getToken tm cm).2.2
          (runBody env (LoadBalancer.getToken tm cm).1).1).2 = cm
      rw [runBody_fst, hr]
      simp only [finalizeRelease, if_neg hs]
      show LoadBalancer.releaseToken (LoadBalancer.getToken tm cm).2.2 s = cm
      have hspec := getTokenLoop_some_spec tm.tokens.length tm cm s hr
      show decrementUsage (getTokenLoop tm.tokens.length tm cm).2.2 s = cm
      rw [hspec.2.2]
      exact decrement_increment_cancel cm s hspec.2.1

/-- Concrete request environment for the C1 witness. -/
def envA : HandlerEnv :=
  ⟨"sora-image", "req1", "task1", 10, Except.ok "https://r", 100, 160⟩

/-- Claim C1 amended, witness: a successful image generation on the
sample pool with the non-empty secret "t". -/
theorem claim_C1_amended_witness :
    (handleChatCompletion envA tmA cmA).1.logs.length = 1 ∧
    ("t" ≠ "" ∧ (LoadBalancer.getToken tmA cmA).1 = some "t") ∧
    ((handleChatCompletion envA tmA cmA).1.releases = ["t"] ∧
     (handleChatCompletion envA tmA cmA).2.2 = cmA) :=
  ⟨(claim_C1_amended envA tmA cmA).1, ⟨by decide, by decide⟩,
   (claim_C1_amended envA tmA cmA).2.2.2 "t" (by decide) (by decide)⟩

end Sora
